import Mathlib

/-
  Verification of the snippet-edit applier of `src/commands.ts`
  (`parseSnippet`, `countLines`, `applySnippetWorkspaceEdit`).

  JS strings are modelled as `List Char`; the LSP data types
  (`Position`, `Range`, `TextEdit`, `TextDocumentEdit`, `WorkspaceEdit`)
  are modelled structurally.  The hosting editor's document store
  (coc.nvim's `workspace`) is an external collaborator; it is modelled as a
  `Workspace` state together with a trace of the calls made into it
  (`Event`), with edit application interpreted as ordered replacement of
  position-addressed spans.
-/

namespace RA

/-- Number of newline characters in a text.  Mirrors `countLines` of
`src/commands.ts` (`(text.match(/\n/g) || []).length`). -/
def countLines (text : List Char) : Nat :=
  text.count '\n'

/-- JS `String.prototype.lastIndexOf` for a single character: index of the
last occurrence, `-1` if absent. -/
def lastIndexOf : List Char → Char → Int
  | [], _ => -1
  | x :: xs, c =>
    if lastIndexOf xs c = -1 then (if x = c then 0 else -1) else lastIndexOf xs c + 1

/-- Does `pat` occur at the head of `s`? (JS substring test at one position.) -/
def leadsWith : List Char → List Char → Bool
  | [], _ => true
  | _ :: _, [] => false
  | p :: ps, s :: ss => p = s && leadsWith ps ss

/-- Index of the first occurrence of `pat` in `s` (leftmost, as JS
`String.prototype.indexOf` / the scan done by `String.prototype.replace`). -/
def firstOccur (pat : List Char) : List Char → Option Nat
  | [] => if leadsWith pat [] then some 0 else none
  | c :: r => if leadsWith pat (c :: r) then some 0 else (firstOccur pat r).map fun n => n + 1

/-- JS `String.prototype.replace` replacement-pattern substitution for a plain
string pattern: in the replacement string, `$$` stands for `$`, `$&` for the
matched text, a `$` followed by a backquote for the part before the match and
`$` followed by an apostrophe for the part after it; any other `$` is literal.
Arguments: matched text, text before the match, text after the match,
replacement string. -/
def dollarSub (matched before after : List Char) : List Char → List Char
  | [] => []
  | c :: r =>
    if c = '$' then
      match r with
      | [] => ['$']
      | b :: r2 =>
        if b = '$' then '$' :: dollarSub matched before after r2
        else if b = '&' then matched ++ dollarSub matched before after r2
        else if b = Char.ofNat 96 then before ++ dollarSub matched before after r2
        else if b = Char.ofNat 39 then after ++ dollarSub matched before after r2
        else '$' :: b :: dollarSub matched before after r2
    else c :: dollarSub matched before after r

/-- JS `s.replace(pat, repl)` with a string pattern: replace the first
occurrence of `pat`, applying the replacement-pattern substitution to `repl`. -/
def jsReplace (s pat repl : List Char) : List Char :=
  match firstOccur pat s with
  | none => s
  | some i =>
    s.take i ++ dollarSub pat (s.take i) (s.drop (i + pat.length)) repl ++ s.drop (i + pat.length)

/-- Characters of the default text of a bounded marker: `[^}]*` up to the
first closing brace.  Returns the default text and the rest after the brace;
`none` when no closing brace exists (so the regex does not match there). -/
def takeUntilBrace : List Char → Option (List Char × List Char)
  | [] => none
  | c :: r =>
    if c = '\x7d' then some ([], r)
    else (takeUntilBrace r).map fun p => (c :: p.1, p.2)

/-- One attempt of the regex `\$(0|\{0:([^}]*)\})` at the head of the text:
returns the matched text (`m[0]`) and the default text (`m[2] ?? ''`).
The alternation prefers the bare `$0`, exactly as in the source regex. -/
def matchAt : List Char → Option (List Char × List Char)
  | '$' :: '0' :: _ => some (['$', '0'], [])
  | '$' :: '\x7b' :: '0' :: ':' :: r =>
    (takeUntilBrace r).map fun p => ('$' :: '\x7b' :: '0' :: ':' :: (p.1 ++ ['\x7d']), p.1)
  | _ => none

/-- Leftmost match of the marker regex: `snip.match(/\$(0|\{0:([^}]*)\})/)`,
returning (`m.index`, `m[0]`, `m[2] ?? ''`). -/
def findMarker : List Char → Option (Nat × List Char × List Char)
  | [] => none
  | c :: r =>
    match matchAt (c :: r) with
    | some (m, d) => some (0, m, d)
    | none => (findMarker r).map fun x => (x.1 + 1, x.2)

/-- `parseSnippet` of `src/commands.ts`: find the first placeholder marker,
replace it (JS `String.replace`) by its default text, and return the new text
together with `[m.index, placeholder.length]`; `undefined` if no marker. -/
def parseSnippet (snip : List Char) : Option (List Char × Nat × Nat) :=
  match findMarker snip with
  | none => none
  | some (idx, matched, placeholder) =>
    some (jsReplace snip matched placeholder, idx, placeholder.length)

/-! ## LSP data model -/

/-- LSP `Position`; JS numbers are modelled as `Int` (the computed selection
line/column arithmetic in the source can in principle go negative). -/
structure Position where
  line : Int
  character : Int
deriving DecidableEq

/-- LSP `Range`. -/
structure Range where
  start : Position
  «end» : Position
deriving DecidableEq

/-- `Range.create(a, b, c, d)` of `vscode-languageserver-protocol`. -/
def Range.create (a b c d : Int) : Range :=
  ⟨⟨a, b⟩, ⟨c, d⟩⟩

/-- LSP `TextEdit`: a range and its replacement text. -/
structure TextEdit where
  range : Range
  newText : List Char
deriving DecidableEq

/-- Identity of the edited document (the `textDocument` field of a
`TextDocumentEdit`; the version tag plays no role in the applier). -/
structure TextDocumentIdentifier where
  uri : String
deriving DecidableEq

/-- LSP `TextDocumentEdit`: the "Grouped Edit" of the spec. -/
structure TextDocumentEdit where
  textDocument : TextDocumentIdentifier
  edits : List TextEdit
deriving DecidableEq

/-- A member of `WorkspaceEdit.documentChanges`: either a `TextDocumentEdit`
(for which `TextDocumentEdit.is` is true) or a resource operation
(create/rename/delete file), for which it is false. -/
inductive DocumentChange where
  | textDocumentEdit (tde : TextDocumentEdit)
  | resourceOp
deriving DecidableEq

/-- LSP `WorkspaceEdit` restricted to the field the applier reads. -/
structure WorkspaceEdit where
  documentChanges : Option (List DocumentChange)
deriving DecidableEq

/-! ## The external document store -/

/-- Modelled from the spec: the hosting editor's document store (spec section 6:
"current active document, edit application (by document identity + ordered
replacement spans), cursor/selection placement, and document
activation/switch"); coc.nvim's `workspace` object is not part of this
repository.  Documents are an association list from uri to content. -/
structure Workspace where
  docs : List (String × List Char)
  currentUri : String
deriving DecidableEq

/-- A call made into the document store, recorded in order. -/
inductive Event where
  | applyEdit (we : WorkspaceEdit)
  | loadFile (uri : String)
  | jumpTo (uri : String)
  | selectRange (r : Range)
deriving DecidableEq

/-- Content of the document at `u`, if the store holds one. -/
def getDoc (ws : Workspace) (u : String) : Option (List Char) :=
  (ws.docs.find? fun p => p.1 == u).map fun p => p.2

/-- Offset of the start of a line (clamped to the text length when the line
number exceeds the line count, as in `vscode-languageserver-textdocument`). -/
def offsetOfLine : List Char → Nat → Nat
  | _, 0 => 0
  | content, n + 1 =>
    match firstOccur ['\n'] content with
    | none => content.length
    | some i => i + 1 + offsetOfLine (content.drop (i + 1)) n

/-- Modelled from the spec: position-to-offset conversion of the document
store, clamping the position into the document as the reference
`vscode-languageserver-textdocument` implementation does. -/
def offsetAt (content : List Char) (p : Position) : Nat :=
  if p.line < 0 then 0
  else
    let ls : Int := offsetOfLine content p.line.toNat
    let next : Int := offsetOfLine content (p.line.toNat + 1)
    (max ls (min (ls + p.character) next)).toNat

/-- Modelled from the spec: replacing one position-addressed span. -/
def applyOneEdit (content : List Char) (e : TextEdit) : List Char :=
  let a := offsetAt content e.range.start
  let b := offsetAt content e.range.«end»
  content.take a ++ e.newText ++ content.drop b

/-- Modelled from the spec: edit application "by document identity + ordered
replacement spans" (spec section 6) — the spans are applied in order. -/
def applyDocEdits (content : List Char) (edits : List TextEdit) : List Char :=
  edits.foldl applyOneEdit content

/-- Effect of one document change on the store. -/
def applyDocChange (ws : Workspace) (c : DocumentChange) : Workspace :=
  match c with
  | DocumentChange.resourceOp => ws
  | DocumentChange.textDocumentEdit tde =>
    { ws with
      docs := ws.docs.map fun p =>
        if p.1 == tde.textDocument.uri then (p.1, applyDocEdits p.2 tde.edits) else p }

/-- Modelled from the spec: `workspace.applyEdit`, the document store's edit
application. -/
def applyEditW (ws : Workspace) (we : WorkspaceEdit) : Workspace :=
  match we.documentChanges with
  | none => ws
  | some cs => cs.foldl applyDocChange ws

/-- The store effect of one recorded call: edit application edits documents,
`jumpTo` switches the active document, the others do not change the modelled
state. -/
def applyEventW (ws : Workspace) (ev : Event) : Workspace :=
  match ev with
  | Event.applyEdit we => applyEditW ws we
  | Event.loadFile _ => ws
  | Event.jumpTo u => { ws with currentUri := u }
  | Event.selectRange _ => ws

/-! ## The applier (`applySnippetWorkspaceEdit` of `src/commands.ts`) -/

/-- The selection computed in the marker branch of the loop
(`src/commands.ts` lines 281–288), given the current `lineDelta`, the edit,
and the parse result `[newText, [placeholderStart, placeholderLength]]`. -/
def computeSelection (lineDelta : Int) (indel : TextEdit) (newText : List Char)
    (placeholderStart placeholderLength : Nat) : Range :=
  let pre := newText.take placeholderStart
  let lastNewline := lastIndexOf pre '\n'
  let startLine := indel.range.start.line + lineDelta + (countLines pre : Int)
  let startColumn :=
    if lastNewline = -1 then indel.range.start.character + (placeholderStart : Int)
    else (pre.length : Int) - lastNewline - 1
  let endColumn := startColumn + (placeholderLength : Int)
  Range.create startLine startColumn startLine endColumn

/-- The `lineDelta` assignment of the no-marker branch (`src/commands.ts`
line 293): `countLines(indel.newText) - (indel.range.end.line -
indel.range.start.line)`. -/
def drift (indel : TextEdit) : Int :=
  (countLines indel.newText : Int) - (indel.range.«end».line - indel.range.start.line)

/-- The `for (const indel of change.edits)` loop of
`applySnippetWorkspaceEdit` (`src/commands.ts` lines 277–298), threading the
store state and accumulating the trace of `workspace.applyEdit` calls, the
`selection` variable and the `lineDelta` variable. -/
def applyLoop (change : TextDocumentEdit) :
    Workspace → Option Range → Int → List TextEdit → Workspace × List Event × Option Range
  | ws, sel, _, [] => (ws, [], sel)
  | ws, sel, lineDelta, indel :: rest =>
    match parseSnippet indel.newText with
    | some (newText, placeholderStart, placeholderLength) =>
      let sel2 := computeSelection lineDelta indel newText placeholderStart placeholderLength
      let wsEdit : WorkspaceEdit :=
        ⟨some [DocumentChange.textDocumentEdit ⟨change.textDocument, [⟨indel.range, newText⟩]⟩]⟩
      let r := applyLoop change (applyEditW ws wsEdit) (some sel2) lineDelta rest
      (r.1, Event.applyEdit wsEdit :: r.2.1, r.2.2)
    | none =>
      let wsEdit : WorkspaceEdit := ⟨some [DocumentChange.textDocumentEdit change]⟩
      let r := applyLoop change (applyEditW ws wsEdit) sel (drift indel) rest
      (r.1, Event.applyEdit wsEdit :: r.2.1, r.2.2)

/-- `applySnippetWorkspaceEdit` of `src/commands.ts` (lines 268–311):
returns the final store state and the ordered trace of calls made into the
store. -/
def applySnippetWorkspaceEdit (ws : Workspace) (edit : WorkspaceEdit) :
    Workspace × List Event :=
  match edit.documentChanges with
  | none => (ws, [])
  | some [] => (ws, [])
  | some (change :: _) =>
    match change with
    | DocumentChange.resourceOp => (ws, [])
    | DocumentChange.textDocumentEdit tde =>
      let r := applyLoop tde ws none 0 tde.edits
      match r.2.2 with
      | none => (r.1, r.2.1)
      | some selection =>
        if r.1.currentUri ≠ tde.textDocument.uri then
          ({ r.1 with currentUri := tde.textDocument.uri },
            r.2.1 ++ [Event.loadFile tde.textDocument.uri, Event.jumpTo tde.textDocument.uri])
        else
          (r.1, r.2.1 ++ [Event.selectRange selection])

/-! ## Specification-side vocabulary -/

/-- The bare zero-width marker of the spec: the text `$0`. -/
def isBareMarker (m : List Char) : Prop :=
  m = ['$', '0']

/-- A bounded marker with inline default text `d`: the text `$\x7b0:d\x7d`
where `d` holds no closing brace. -/
def isBoundedMarker (m d : List Char) : Prop :=
  m = '$' :: '\x7b' :: '0' :: ':' :: (d ++ ['\x7d']) ∧ '\x7d' ∉ d

/-- A placeholder marker with default text `d` (empty for the bare marker). -/
def isMarker (m d : List Char) : Prop :=
  (isBareMarker m ∧ d = []) ∨ isBoundedMarker m d

instance (m d : List Char) : Decidable (isMarker m d) := by
  unfold isMarker isBareMarker isBoundedMarker
  exact inferInstance

/-- The text contains a substring that is a placeholder marker. -/
def containsMarker (s : List Char) : Prop :=
  ∃ pre m d post, s = pre ++ m ++ post ∧ isMarker m d

/-- Does the text contain a JS replacement-pattern escape: a `$` followed by
`$`, `&`, a backquote or an apostrophe? -/
def hasDollarEscape : List Char → Bool
  | [] => false
  | [_] => false
  | a :: b :: r =>
    (a = '$' && (b = '$' || b = '&' || b = Char.ofNat 96 || b = Char.ofNat 39))
      || hasDollarEscape (b :: r)

/-- The default text is free of JS replacement-pattern escapes, so
`String.replace` inserts it verbatim. -/
def noDollarEscape (d : List Char) : Prop :=
  hasDollarEscape d = false

instance (d : List Char) : Decidable (noDollarEscape d) := by
  unfold noDollarEscape
  exact inferInstance

/-- The value of the loop's `lineDelta` variable after processing the given
edits, starting from `δ`: markerless edits overwrite it with their `drift`,
marker-bearing edits leave it unchanged. -/
def lineDeltaAfter (δ : Int) (edits : List TextEdit) : Int :=
  edits.foldl (fun d e => match parseSnippet e.newText with | some _ => d | none => drift e) δ

/-- The drift of the most recent markerless edit in the list (`δ` when there
is none). -/
def lastNonMarkerDrift (δ : Int) (edits : List TextEdit) : Int :=
  match (edits.filter fun e => (parseSnippet e.newText).isNone).getLast? with
  | none => δ
  | some e => drift e

/-- Event classifiers for the recorded trace. -/
def isApplyEditEv : Event → Bool
  | Event.applyEdit _ => true
  | _ => false

def isLoadFileEv : Event → Bool
  | Event.loadFile _ => true
  | _ => false

def isJumpToEv : Event → Bool
  | Event.jumpTo _ => true
  | _ => false

def isSelectRangeEv : Event → Bool
  | Event.selectRange _ => true
  | _ => false

/-! ## Lemmas about the marker parser -/

theorem leadsWith_iff (p : List Char) : ∀ s, leadsWith p s = true ↔ ∃ rest, s = p ++ rest := by
  induction p with
  | nil => intro s; simp [leadsWith]
  | cons a p ih =>
    intro s
    cases s with
    | nil => simp [leadsWith]
    | cons b t =>
      simp only [leadsWith, Bool.and_eq_true, decide_eq_true_eq, ih, List.cons_append,
        List.cons.injEq]
      constructor
      · rintro ⟨rfl, rest, rfl⟩; exact ⟨rest, rfl, rfl⟩
      · rintro ⟨rest, rfl, rfl⟩; exact ⟨rfl, rest, rfl⟩

theorem takeUntilBrace_eq (d : List Char) (rest : List Char) (hd : '\x7d' ∉ d) :
    takeUntilBrace (d ++ '\x7d' :: rest) = some (d, rest) := by
  induction d with
  | nil => simp [takeUntilBrace]
  | cons c d ih =>
    simp only [List.mem_cons, not_or] at hd
    have hc : ¬c = '\x7d' := fun h => hd.1 h.symm
    simp [takeUntilBrace, hc, ih hd.2]

theorem takeUntilBrace_some (r : List Char) :
    ∀ d rest, takeUntilBrace r = some (d, rest) → r = d ++ '\x7d' :: rest ∧ '\x7d' ∉ d := by
  induction r with
  | nil => intro d rest h; simp [takeUntilBrace] at h
  | cons c r ih =>
    intro d rest h
    by_cases hc : c = '\x7d'
    · subst hc
      simp [takeUntilBrace] at h
      obtain ⟨rfl, rfl⟩ := h
      simp
    · simp only [takeUntilBrace, if_neg hc, Option.map_eq_some'] at h
      obtain ⟨⟨d', rest'⟩, hp, hq⟩ := h
      obtain ⟨h1, h2⟩ := ih d' rest' hp
      simp only [Prod.mk.injEq] at hq
      obtain ⟨hq1, hq2⟩ := hq
      subst hq1; subst hq2
      refine ⟨by simp [h1], ?_⟩
      simp only [List.mem_cons, not_or]
      exact ⟨fun h => hc h.symm, h2⟩

theorem matchAt_marker (m d : List Char) (h : isMarker m d) (rest : List Char) :
    matchAt (m ++ rest) = some (m, d) := by
  rcases h with ⟨hm, hd⟩ | ⟨hm, hd⟩
  · subst hd; rw [hm]; rfl
  · subst hm
    simp only [List.cons_append, List.append_assoc, List.cons_append]
    show matchAt ('$' :: '\x7b' :: '0' :: ':' :: (d ++ '\x7d' :: rest)) = _
    simp [matchAt, takeUntilBrace_eq d rest hd]

theorem matchAt_some (t m d : List Char) (h : matchAt t = some (m, d)) :
    isMarker m d ∧ ∃ rest, t = m ++ rest := by
  unfold matchAt at h
  split at h
  · rename_i rest
    simp only [Option.some.injEq, Prod.mk.injEq] at h
    obtain ⟨rfl, rfl⟩ := h
    exact ⟨Or.inl ⟨rfl, rfl⟩, rest, rfl⟩
  · rename_i r
    simp only [Option.map_eq_some'] at h
    obtain ⟨⟨d', rest'⟩, hp, hq⟩ := h
    obtain ⟨h1, h2⟩ := takeUntilBrace_some r d' rest' hp
    simp only [Prod.mk.injEq] at hq
    obtain ⟨rfl, rfl⟩ := hq
    refine ⟨Or.inr ⟨rfl, h2⟩, rest', ?_⟩
    simp [h1]
  · exact absurd h (by simp)

theorem findMarker_none (s : List Char) (h : findMarker s = none) :
    ∀ j, matchAt (s.drop j) = none := by
  induction s with
  | nil => intro j; rw [List.drop_nil]; rfl
  | cons c r ih =>
    unfold findMarker at h
    cases hm : matchAt (c :: r) with
    | some p =>
      obtain ⟨m, d⟩ := p
      rw [hm] at h
      simp at h
    | none =>
      rw [hm] at h
      simp only [Option.map_eq_none'] at h
      intro j
      cases j with
      | zero => simpa using hm
      | succ j => simpa using ih h j

theorem findMarker_some (s : List Char) :
    ∀ i m d, findMarker s = some (i, m, d) →
      leadsWith m (s.drop i) = true ∧ isMarker m d ∧ ∀ j, j < i → matchAt (s.drop j) = none := by
  induction s with
  | nil => intro i m d h; simp [findMarker] at h
  | cons c r ih =>
    intro i m d h
    unfold findMarker at h
    cases hm : matchAt (c :: r) with
    | some p =>
      obtain ⟨m', d'⟩ := p
      rw [hm] at h
      simp only [Option.some.injEq, Prod.mk.injEq] at h
      obtain ⟨rfl, rfl, rfl⟩ := h
      obtain ⟨hmk, rest, hrest⟩ := matchAt_some _ _ _ hm
      refine ⟨?_, hmk, fun j hj => absurd hj (Nat.not_lt_zero j)⟩
      rw [List.drop_zero, hrest]
      exact (leadsWith_iff _ _).mpr ⟨rest, rfl⟩
    | none =>
      rw [hm] at h
      simp only [Option.map_eq_some'] at h
      obtain ⟨⟨i', m', d'⟩, hp, hq⟩ := h
      simp only [Prod.mk.injEq] at hq
      obtain ⟨hq1, hq2, hq3⟩ := hq
      subst hq1; subst hq2; subst hq3
      obtain ⟨h1, h2, h3⟩ := ih i' m' d' hp
      refine ⟨by simpa using h1, h2, ?_⟩
      intro j hj
      cases j with
      | zero => simpa using hm
      | succ j => simpa using h3 j (by omega)

theorem firstOccur_of_minimal (pat s : List Char) :
    ∀ i, leadsWith pat (s.drop i) = true →
      (∀ j, j < i → leadsWith pat (s.drop j) = false) → firstOccur pat s = some i := by
  induction s with
  | nil =>
    intro i h hmin
    cases i with
    | zero =>
      rw [List.drop_zero] at h
      simp [firstOccur, h]
    | succ i =>
      exfalso
      have h0 := hmin 0 (Nat.succ_pos i)
      rw [List.drop_nil] at h
      rw [List.drop_zero] at h0
      rw [h] at h0
      exact Bool.noConfusion h0
  | cons c r ih =>
    intro i h hmin
    cases i with
    | zero =>
      rw [List.drop_zero] at h
      simp [firstOccur, h]
    | succ i =>
      have h0 := hmin 0 (Nat.succ_pos i)
      rw [List.drop_zero] at h0
      have hrec := ih i (by simpa using h) (fun j hj => by simpa using hmin (j + 1) (by omega))
      simp [firstOccur, h0, hrec]

theorem hasDollarEscape_tail (b : Char) (r : List Char)
    (h : hasDollarEscape (b :: r) = false) : hasDollarEscape r = false := by
  cases r with
  | nil => rfl
  | cons x r3 =>
    unfold hasDollarEscape at h
    simp only [Bool.or_eq_false_iff] at h
    exact h.2

theorem dollarSub_id (matched before after repl : List Char)
    (h : hasDollarEscape repl = false) : dollarSub matched before after repl = repl := by
  revert h
  induction repl using dollarSub.induct matched before after with
  | case1 => intro _; rfl
  | case2 => intro _; simp [dollarSub]
  | case3 r2 _ => intro h; simp [hasDollarEscape] at h
  | case4 r2 _ _ => intro h; simp [hasDollarEscape] at h
  | case5 r2 _ _ _ => intro h; simp [hasDollarEscape] at h
  | case6 r2 _ _ _ _ => intro h; simp [hasDollarEscape] at h
  | case7 b r2 hb1 hb2 hb3 hb4 ih =>
    intro h
    have h2 : hasDollarEscape r2 = false :=
      hasDollarEscape_tail b r2 (hasDollarEscape_tail '$' (b :: r2) h)
    simp [dollarSub, hb1, hb2, hb3, hb4, ih h2]
  | case8 b r2 hb ih =>
    intro h
    have h2 : hasDollarEscape r2 = false := hasDollarEscape_tail b r2 h
    rw [dollarSub.eq_def]
    simp only [if_neg hb]
    rw [ih h2]

theorem findMarker_parts (s : List Char) (i : Nat) (m d : List Char)
    (h : findMarker s = some (i, m, d)) :
    isMarker m d ∧ s.drop i = m ++ s.drop (i + m.length) ∧ firstOccur m s = some i := by
  obtain ⟨h1, h2, h3⟩ := findMarker_some s i m d h
  obtain ⟨rest, hrest⟩ := (leadsWith_iff m _).mp h1
  have hdrop : s.drop i = m ++ s.drop (i + m.length) := by
    have he : s.drop (i + m.length) = (s.drop i).drop m.length := by
      rw [List.drop_drop, Nat.add_comm]
    rw [he, hrest, List.drop_left]
  refine ⟨h2, hdrop, ?_⟩
  apply firstOccur_of_minimal
  · exact h1
  · intro j hj
    cases hlw : leadsWith m (s.drop j) with
    | false => rfl
    | true =>
      exfalso
      obtain ⟨rest', hr'⟩ := (leadsWith_iff _ _).mp hlw
      have hsome := matchAt_marker m d h2 rest'
      rw [← hr', h3 j hj] at hsome
      exact Option.noConfusion hsome

theorem findMarker_split (s : List Char) (i : Nat) (m d : List Char)
    (h : findMarker s = some (i, m, d)) :
    s = s.take i ++ m ++ s.drop (i + m.length) := by
  obtain ⟨_, hdrop, _⟩ := findMarker_parts s i m d h
  conv_lhs => rw [← List.take_append_drop i s, hdrop]
  rw [List.append_assoc]

theorem findMarker_isSome_iff (s : List Char) :
    (findMarker s).isSome = true ↔ containsMarker s := by
  constructor
  · intro h
    obtain ⟨⟨i, m, d⟩, hfm⟩ := Option.isSome_iff_exists.mp h
    obtain ⟨hmk, _, _⟩ := findMarker_parts s i m d hfm
    exact ⟨s.take i, m, d, s.drop (i + m.length), findMarker_split s i m d hfm, hmk⟩
  · rintro ⟨pre, m, d, post, rfl, hmk⟩
    have hmm : matchAt ((pre ++ m ++ post).drop pre.length) = some (m, d) := by
      rw [List.append_assoc, List.drop_left]
      exact matchAt_marker m d hmk post
    cases hf : findMarker (pre ++ m ++ post) with
    | some x => simp
    | none =>
      rw [findMarker_none _ hf pre.length] at hmm
      exact Option.noConfusion hmm

theorem parseSnippet_isSome_iff (s : List Char) :
    (parseSnippet s).isSome = true ↔ containsMarker s := by
  rw [← findMarker_isSome_iff]
  unfold parseSnippet
  cases findMarker s with
  | none => simp
  | some x =>
    obtain ⟨i, m, d⟩ := x
    simp

/-- The positive half of the parser contract: at the first marker, when the
default text holds no replacement-pattern escape, `parseSnippet` yields the
text with the marker replaced by the default text, the marker's index, and
the default text's length. -/
theorem parseSnippet_marker (s : List Char) (i : Nat) (m d : List Char)
    (h : findMarker s = some (i, m, d)) (hd : noDollarEscape d) :
    parseSnippet s = some (s.take i ++ d ++ s.drop (i + m.length), i, d.length) := by
  obtain ⟨_, _, hocc⟩ := findMarker_parts s i m d h
  unfold parseSnippet jsReplace
  rw [h]
  simp only [hocc, dollarSub_id _ _ _ d hd]

/-! ## Lemmas about the applier loop -/

theorem applyDocChange_currentUri (ws : Workspace) (c : DocumentChange) :
    (applyDocChange ws c).currentUri = ws.currentUri := by
  cases c <;> rfl

theorem foldl_applyDocChange_currentUri (cs : List DocumentChange) :
    ∀ ws, (List.foldl applyDocChange ws cs).currentUri = ws.currentUri := by
  induction cs with
  | nil => intro ws; rfl
  | cons c cs ih => intro ws; rw [List.foldl_cons, ih, applyDocChange_currentUri]

theorem applyEditW_currentUri (ws : Workspace) (we : WorkspaceEdit) :
    (applyEditW ws we).currentUri = ws.currentUri := by
  unfold applyEditW
  cases we.documentChanges with
  | none => rfl
  | some cs => exact foldl_applyDocChange_currentUri cs ws

theorem applyLoop_currentUri (change : TextDocumentEdit) (edits : List TextEdit) :
    ∀ ws sel δ, (applyLoop change ws sel δ edits).1.currentUri = ws.currentUri := by
  induction edits with
  | nil => intro ws sel δ; rfl
  | cons indel rest ih =>
    intro ws sel δ
    cases hp : parseSnippet indel.newText with
    | some p =>
      obtain ⟨nt, s, l⟩ := p
      simp only [applyLoop, hp]
      rw [ih, applyEditW_currentUri]
    | none =>
      simp only [applyLoop, hp]
      rw [ih, applyEditW_currentUri]

theorem applyLoop_sel_frozen (change : TextDocumentEdit) (edits : List TextEdit)
    (h : ∀ e ∈ edits, parseSnippet e.newText = none) :
    ∀ ws sel δ, (applyLoop change ws sel δ edits).2.2 = sel := by
  induction edits with
  | nil => intro ws sel δ; rfl
  | cons indel rest ih =>
    intro ws sel δ
    have h0 : parseSnippet indel.newText = none := h indel (by simp)
    simp only [applyLoop, h0]
    exact ih (fun e he => h e (by simp [he])) _ _ _

theorem lineDeltaAfter_nil (δ : Int) : lineDeltaAfter δ [] = δ := rfl

theorem lineDeltaAfter_cons_marker (δ : Int) (e : TextEdit) (rest : List TextEdit)
    (h : (parseSnippet e.newText).isSome = true) :
    lineDeltaAfter δ (e :: rest) = lineDeltaAfter δ rest := by
  obtain ⟨p, hp⟩ := Option.isSome_iff_exists.mp h
  unfold lineDeltaAfter
  rw [List.foldl_cons, hp]

theorem lineDeltaAfter_cons_none (δ : Int) (e : TextEdit) (rest : List TextEdit)
    (h : parseSnippet e.newText = none) :
    lineDeltaAfter δ (e :: rest) = lineDeltaAfter (drift e) rest := by
  unfold lineDeltaAfter
  rw [List.foldl_cons, h]

theorem lineDeltaAfter_eq_lastNonMarkerDrift (edits : List TextEdit) :
    ∀ δ, lineDeltaAfter δ edits = lastNonMarkerDrift δ edits := by
  induction edits with
  | nil => intro δ; rfl
  | cons e rest ih =>
    intro δ
    cases hp : parseSnippet e.newText with
    | some p =>
      rw [lineDeltaAfter_cons_marker δ e rest (by simp [hp]), ih]
      unfold lastNonMarkerDrift
      simp [List.filter_cons, hp]
    | none =>
      rw [lineDeltaAfter_cons_none δ e rest hp, ih]
      unfold lastNonMarkerDrift
      simp only [List.filter_cons, hp, Option.isNone_none, if_pos]
      cases hfr : rest.filter fun e => (parseSnippet e.newText).isNone with
      | nil => simp
      | cons x xs =>
        cases hxl : (x :: xs).getLast? with
        | none => simp at hxl
        | some y => simp [hxl]

/-- The loop's final `selection` is the one computed for the last
marker-bearing edit, with the `lineDelta` value current at that point. -/
theorem applyLoop_sel_last (change : TextDocumentEdit) (m : TextEdit)
    (nt : List Char) (s l : Nat) (hm : parseSnippet m.newText = some (nt, s, l))
    (post : List TextEdit) (hpost : ∀ e ∈ post, parseSnippet e.newText = none)
    (pre : List TextEdit) :
    ∀ ws sel δ, (applyLoop change ws sel δ (pre ++ m :: post)).2.2 =
      some (computeSelection (lineDeltaAfter δ pre) m nt s l) := by
  induction pre with
  | nil =>
    intro ws sel δ
    simp only [List.nil_append, applyLoop, hm]
    rw [applyLoop_sel_frozen change post hpost]
    rfl
  | cons e pre ih =>
    intro ws sel δ
    cases hp : parseSnippet e.newText with
    | some p =>
      obtain ⟨nt', s', l'⟩ := p
      simp only [List.cons_append, applyLoop, hp, List.append_eq]
      rw [ih, lineDeltaAfter_cons_marker δ e pre (by simp [hp])]
    | none =>
      simp only [List.cons_append, applyLoop, hp, List.append_eq]
      rw [ih, lineDeltaAfter_cons_none δ e pre hp]

theorem applyLoop_events_applyEdit (change : TextDocumentEdit) (edits : List TextEdit) :
    ∀ ws sel δ ev, ev ∈ (applyLoop change ws sel δ edits).2.1 → isApplyEditEv ev = true := by
  induction edits with
  | nil => intro ws sel δ ev hev; simp [applyLoop] at hev
  | cons indel rest ih =>
    intro ws sel δ ev hev
    cases hp : parseSnippet indel.newText with
    | some p =>
      obtain ⟨nt, s, l⟩ := p
      simp only [applyLoop, hp, List.mem_cons] at hev
      rcases hev with rfl | hev
      · rfl
      · exact ih _ _ _ _ hev
    | none =>
      simp only [applyLoop, hp, List.mem_cons] at hev
      rcases hev with rfl | hev
      · rfl
      · exact ih _ _ _ _ hev

theorem applyLoop_sel_some (change : TextDocumentEdit) (edits : List TextEdit) :
    ∀ ws r δ, (applyLoop change ws (some r) δ edits).2.2.isSome = true := by
  induction edits with
  | nil => intro ws r δ; rfl
  | cons indel rest ih =>
    intro ws r δ
    cases hp : parseSnippet indel.newText with
    | some p =>
      obtain ⟨nt, s, l⟩ := p
      simp only [applyLoop, hp]
      exact ih _ _ _
    | none =>
      simp only [applyLoop, hp]
      exact ih _ _ _

theorem applyLoop_sel_marker_isSome (change : TextDocumentEdit) (edits : List TextEdit)
    (h : ∃ e ∈ edits, (parseSnippet e.newText).isSome = true) :
    ∀ ws sel δ, (applyLoop change ws sel δ edits).2.2.isSome = true := by
  induction edits with
  | nil => obtain ⟨e, he, _⟩ := h; simp at he
  | cons indel rest ih =>
    intro ws sel δ
    cases hp : parseSnippet indel.newText with
    | some p =>
      obtain ⟨nt, s, l⟩ := p
      simp only [applyLoop, hp]
      exact applyLoop_sel_some change rest _ _ _
    | none =>
      obtain ⟨e, he, hsome⟩ := h
      rcases List.mem_cons.mp he with rfl | he2
      · rw [hp] at hsome; exact Bool.noConfusion hsome
      · simp only [applyLoop, hp]
        exact ih ⟨e, he2, hsome⟩ _ _ _

theorem applyLoop_events_length (change : TextDocumentEdit) (edits : List TextEdit) :
    ∀ ws sel δ, (applyLoop change ws sel δ edits).2.1.length = edits.length := by
  induction edits with
  | nil => intro ws sel δ; rfl
  | cons indel rest ih =>
    intro ws sel δ
    cases hp : parseSnippet indel.newText with
    | some p =>
      obtain ⟨nt, s, l⟩ := p
      simp only [applyLoop, hp, List.length_cons]
      rw [ih]
    | none =>
      simp only [applyLoop, hp, List.length_cons]
      rw [ih]

/-- The call recorded for a marker-bearing edit: an isolated
`workspace.applyEdit` holding exactly one `TextDocumentEdit` with exactly one
`TextEdit`, replacing the edit's range by the parsed text. -/
theorem applyLoop_event_at (change : TextDocumentEdit) (m : TextEdit)
    (nt : List Char) (s l : Nat) (hm : parseSnippet m.newText = some (nt, s, l))
    (post : List TextEdit) (pre : List TextEdit) :
    ∀ ws sel δ, (applyLoop change ws sel δ (pre ++ m :: post)).2.1[pre.length]? =
      some (Event.applyEdit
        ⟨some [DocumentChange.textDocumentEdit
          ⟨change.textDocument, [⟨m.range, nt⟩]⟩]⟩) := by
  induction pre with
  | nil =>
    intro ws sel δ
    simp only [List.nil_append, applyLoop, hm, List.length_nil]
    simp
  | cons e pre ih =>
    intro ws sel δ
    cases hp : parseSnippet e.newText with
    | some p =>
      obtain ⟨nt', s', l'⟩ := p
      simp only [List.cons_append, applyLoop, hp, List.append_eq, List.length_cons,
        List.getElem?_cons_succ]
      exact ih _ _ _
    | none =>
      simp only [List.cons_append, applyLoop, hp, List.append_eq, List.length_cons,
        List.getElem?_cons_succ]
      exact ih _ _ _

/-- Sequencing: the store state after processing any prefix of the group is
the fold of the recorded calls of that prefix — each edit application's
effect is incorporated before the next edit is processed. -/
theorem applyLoop_state_trace (change : TextDocumentEdit) (edits : List TextEdit) :
    ∀ ws sel δ k, (applyLoop change ws sel δ (edits.take k)).1 =
      ((applyLoop change ws sel δ edits).2.1.take k).foldl applyEventW ws := by
  induction edits with
  | nil => intro ws sel δ k; simp [applyLoop]
  | cons e rest ih =>
    intro ws sel δ k
    cases k with
    | zero => simp [applyLoop]
    | succ k =>
      cases hp : parseSnippet e.newText with
      | some p =>
        obtain ⟨nt, s, l⟩ := p
        simp only [List.take_succ_cons, applyLoop, hp, List.foldl_cons]
        rw [ih]
        rfl
      | none =>
        simp only [List.take_succ_cons, applyLoop, hp, List.foldl_cons]
        rw [ih]
        rfl

theorem find?_map_update_ne (docs : List (String × List Char))
    (g : List Char → List Char) (u v : String) (h : ¬u = v) :
    ((docs.map fun p => if p.1 == v then (p.1, g p.2) else p).find? fun p => p.1 == u) =
      docs.find? fun p => p.1 == u := by
  induction docs with
  | nil => rfl
  | cons p docs ih =>
    simp only [List.map_cons]
    by_cases hv : p.1 = v
    · have hu : ¬p.1 = u := fun e => h (by rw [← e, hv])
      rw [if_pos (beq_iff_eq.mpr hv)]
      rw [List.find?_cons_of_neg _ (by simpa using hu),
        List.find?_cons_of_neg _ (by simpa using hu)]
      exact ih
    · rw [if_neg (by simpa using hv)]
      by_cases hu : p.1 = u
      · rw [List.find?_cons_of_pos _ (by simpa using hu),
          List.find?_cons_of_pos _ (by simpa using hu)]
      · rw [List.find?_cons_of_neg _ (by simpa using hu),
          List.find?_cons_of_neg _ (by simpa using hu)]
        exact ih

theorem getDoc_applyDocChange_ne (ws : Workspace) (tde : TextDocumentEdit) (u : String)
    (h : ¬u = tde.textDocument.uri) :
    getDoc (applyDocChange ws (DocumentChange.textDocumentEdit tde)) u = getDoc ws u := by
  unfold applyDocChange getDoc
  rw [find?_map_update_ne ws.docs (fun c => applyDocEdits c tde.edits) u tde.textDocument.uri h]

theorem applyLoop_getDoc_ne (change : TextDocumentEdit) (edits : List TextEdit)
    (u : String) (h : ¬u = change.textDocument.uri) :
    ∀ ws sel δ, getDoc (applyLoop change ws sel δ edits).1 u = getDoc ws u := by
  induction edits with
  | nil => intro ws sel δ; rfl
  | cons indel rest ih =>
    intro ws sel δ
    cases hp : parseSnippet indel.newText with
    | some p =>
      obtain ⟨nt, s, l⟩ := p
      simp only [applyLoop, hp]
      rw [ih]
      exact getDoc_applyDocChange_ne ws ⟨change.textDocument, [⟨indel.range, nt⟩]⟩ u h
    | none =>
      simp only [applyLoop, hp]
      rw [ih]
      exact getDoc_applyDocChange_ne ws change u h

theorem marker_ne_nil (m d : List Char) (h : isMarker m d) : m ≠ [] := by
  rcases h with ⟨hm, _⟩ | ⟨hm, _⟩
  · have hm2 : m = ['$', '0'] := hm
    rw [hm2]; simp
  · rw [hm]; simp

theorem parseSnippet_some_le (snip nt : List Char) (i l : Nat)
    (h : parseSnippet snip = some (nt, i, l)) : i ≤ nt.length := by
  unfold parseSnippet at h
  cases hf : findMarker snip with
  | none => rw [hf] at h; exact Option.noConfusion h
  | some x =>
    obtain ⟨i', m, d⟩ := x
    rw [hf] at h
    simp only [Option.some.injEq, Prod.mk.injEq] at h
    obtain ⟨hnt, hi, hl⟩ := h
    subst hnt
    rw [← hi]
    obtain ⟨hmk, hdrop, hocc⟩ := findMarker_parts snip i' m d hf
    unfold jsReplace
    rw [hocc]
    have hmne : m ≠ [] := marker_ne_nil m d hmk
    have hlt : i' < snip.length := by
      by_contra hge
      push_neg at hge
      have hnil : snip.drop i' = [] := List.drop_eq_nil_of_le hge
      rw [hnil] at hdrop
      exact hmne (List.append_eq_nil.mp hdrop.symm).1
    simp only [List.length_append, List.length_take]
    omega

theorem lastIndexOf_spec (c : Char) (l : List Char) :
    -1 ≤ lastIndexOf l c ∧ (lastIndexOf l c = -1 ↔ l.count c = 0) := by
  induction l with
  | nil => exact ⟨le_refl _, by simp [lastIndexOf]⟩
  | cons x xs ih =>
    obtain ⟨ih1, ih2⟩ := ih
    by_cases hr : lastIndexOf xs c = -1
    · by_cases hx : x = c
      · refine ⟨?_, ?_⟩
        · simp [lastIndexOf, hr, hx]
        · rw [List.count_cons]
          simp [lastIndexOf, hr, hx]
      · refine ⟨?_, ?_⟩
        · simp [lastIndexOf, hr, hx]
        · rw [List.count_cons]
          have hxc : ¬(c == x) = true := by simpa using fun e => hx e.symm
          simp [lastIndexOf, hr, hx, hxc]
          exact ih2.mp hr
    · have h0 : 0 ≤ lastIndexOf xs c := by omega
      refine ⟨?_, ?_⟩
      · simp only [lastIndexOf, if_neg hr]
        omega
      · rw [List.count_cons]
        simp only [lastIndexOf, if_neg hr]
        constructor
        · intro hcontra; omega
        · intro hcount
          exfalso
          have : xs.count c = 0 := by omega
          exact hr (ih2.mpr this)

theorem isApplyEditEv_only (ev : Event) (h : isApplyEditEv ev = true) :
    isSelectRangeEv ev = false ∧ isLoadFileEv ev = false ∧ isJumpToEv ev = false := by
  cases ev
  · exact ⟨rfl, rfl, rfl⟩
  all_goals exact Bool.noConfusion h

/-! ## Unfolding the top-level function -/

theorem applySWE_noSel (ws : Workspace) (tde : TextDocumentEdit)
    (rest : List DocumentChange)
    (hsel : (applyLoop tde ws none 0 tde.edits).2.2 = none) :
    applySnippetWorkspaceEdit ws ⟨some (DocumentChange.textDocumentEdit tde :: rest)⟩ =
      ((applyLoop tde ws none 0 tde.edits).1, (applyLoop tde ws none 0 tde.edits).2.1) := by
  unfold applySnippetWorkspaceEdit
  simp only [hsel]

theorem applySWE_select (ws : Workspace) (tde : TextDocumentEdit)
    (rest : List DocumentChange) (sel : Range)
    (hsel : (applyLoop tde ws none 0 tde.edits).2.2 = some sel)
    (huri : ws.currentUri = tde.textDocument.uri) :
    applySnippetWorkspaceEdit ws ⟨some (DocumentChange.textDocumentEdit tde :: rest)⟩ =
      ((applyLoop tde ws none 0 tde.edits).1,
        (applyLoop tde ws none 0 tde.edits).2.1 ++ [Event.selectRange sel]) := by
  unfold applySnippetWorkspaceEdit
  simp only [hsel]
  rw [if_neg (not_not.mpr (by rw [applyLoop_currentUri]; exact huri))]

theorem applySWE_switch (ws : Workspace) (tde : TextDocumentEdit)
    (rest : List DocumentChange) (sel : Range)
    (hsel : (applyLoop tde ws none 0 tde.edits).2.2 = some sel)
    (huri : ¬ws.currentUri = tde.textDocument.uri) :
    applySnippetWorkspaceEdit ws ⟨some (DocumentChange.textDocumentEdit tde :: rest)⟩ =
      ({ (applyLoop tde ws none 0 tde.edits).1 with currentUri := tde.textDocument.uri },
        (applyLoop tde ws none 0 tde.edits).2.1 ++
          [Event.loadFile tde.textDocument.uri, Event.jumpTo tde.textDocument.uri]) := by
  unfold applySnippetWorkspaceEdit
  simp only [hsel]
  rw [if_pos (by rw [applyLoop_currentUri]; exact huri)]

theorem applySWE_getDoc_ne (ws : Workspace) (tde : TextDocumentEdit)
    (rest : List DocumentChange) (u : String) (h : ¬u = tde.textDocument.uri) :
    getDoc (applySnippetWorkspaceEdit ws
      ⟨some (DocumentChange.textDocumentEdit tde :: rest)⟩).1 u = getDoc ws u := by
  cases hsel : (applyLoop tde ws none 0 tde.edits).2.2 with
  | none =>
    rw [applySWE_noSel ws tde rest hsel]
    exact applyLoop_getDoc_ne tde tde.edits u h ws none 0
  | some sel =>
    by_cases hcur : ws.currentUri = tde.textDocument.uri
    · rw [applySWE_select ws tde rest sel hsel hcur]
      exact applyLoop_getDoc_ne tde tde.edits u h ws none 0
    · rw [applySWE_switch ws tde rest sel hsel hcur]
      exact applyLoop_getDoc_ne tde tde.edits u h ws none 0

/-! ## Concrete fixtures -/

def uriA : String := "file:///a.rs"

def uriB : String := "file:///b.rs"

def wsA : Workspace := ⟨[(uriA, "ab".data)], uriA⟩

def c1Edits : List TextEdit :=
  [⟨Range.create 0 0 0 0, "x".data⟩, ⟨Range.create 0 0 0 0, "y".data⟩]

def c1Tde : TextDocumentEdit := ⟨⟨uriA⟩, c1Edits⟩

def c2M1 : TextEdit := ⟨Range.create 1 1 1 1, "$0".data⟩

def c2M2 : TextEdit := ⟨Range.create 4 2 4 2, "$0".data⟩

def c3E1 : TextEdit := ⟨Range.create 0 0 0 0, "a\nb\n".data⟩

def c3E2 : TextEdit := ⟨Range.create 2 0 2 0, "c\nd\ne\n".data⟩

def c3M : TextEdit := ⟨Range.create 5 0 5 0, "$0".data⟩

def ws4 : Workspace := ⟨[(uriA, "ab".data)], uriB⟩

def ws6 : Workspace := ⟨[(uriA, "aaaa\nbbbb\ncccc\ndddd".data)], uriA⟩

def m6 : TextEdit := ⟨Range.create 2 4 2 4, "$\x7b0:foo\x7d".data⟩

def tde6 : TextDocumentEdit := ⟨⟨uriA⟩, [m6]⟩

def c7S : List Char := "$\x7b0:x\x7d$0".data

def c7Indel : TextEdit := ⟨Range.create 0 0 0 0, c7S⟩

/-! ## Claim theorems -/

/-- C1: the claim says a markerless Grouped Edit applies each member Edit
verbatim exactly once, so the final content should equal applying the edits
individually in order.  In the code, the markerless branch passes the whole
`change` (all member edits) to `workspace.applyEdit` on every loop iteration,
so a two-edit markerless group is applied twice: the document ends as
`yxyxab`, while applying each edit once gives `yxab`.  (The "no Selection"
half of the claim does hold: every recorded call is an edit application.) -/
theorem c1_group_reapplied :
    (∀ e ∈ c1Edits, parseSnippet e.newText = none) ∧
    ((applySnippetWorkspaceEdit wsA
        ⟨some [DocumentChange.textDocumentEdit c1Tde]⟩).2.all isApplyEditEv = true) ∧
    getDoc (applySnippetWorkspaceEdit wsA
        ⟨some [DocumentChange.textDocumentEdit c1Tde]⟩).1 uriA = some "yxyxab".data ∧
    applyDocEdits "ab".data c1Edits = "yxab".data ∧
    ("yxyxab".data : List Char) ≠ "yxab".data := by
  refine ⟨by decide, by decide, by decide, by decide, by decide⟩

/-- C2 counterexample: in a group with two marker-bearing edits (`$0` at
(1,1) and `$0` at (4,2)) the Selection finally applied is the one of the
second, not the first: the claim "the Selection finally applied is the one
derived from the first such Edit" fails. -/
theorem c2_counterexample :
    ((parseSnippet c2M1.newText).isSome = true ∧
      (parseSnippet c2M2.newText).isSome = true) ∧
    (applySnippetWorkspaceEdit wsA
        ⟨some [DocumentChange.textDocumentEdit ⟨⟨uriA⟩, [c2M1, c2M2]⟩]⟩).2.getLast? =
      some (Event.selectRange (Range.create 4 2 4 2)) ∧
    computeSelection 0 c2M1 [] 0 0 = Range.create 1 1 1 1 ∧
    Range.create 4 2 4 2 ≠ Range.create 1 1 1 1 := by
  refine ⟨by decide, by decide, by decide, by decide⟩

/-- C2 (amended): the `selection` variable is overwritten by every
marker-bearing edit, so the Selection finally applied derives from the LAST
marker-bearing Edit of the group (marker edits after it do not exist, and
markerless edits never touch `selection`); all marker-bearing edits are still
applied. -/
theorem c2_last_marker_selection (ws : Workspace) (td : TextDocumentIdentifier)
    (pre : List TextEdit) (m : TextEdit) (post : List TextEdit)
    (nt : List Char) (s l : Nat)
    (hm : parseSnippet m.newText = some (nt, s, l))
    (hpost : ∀ e ∈ post, parseSnippet e.newText = none)
    (huri : ws.currentUri = td.uri) :
    (applySnippetWorkspaceEdit ws
        ⟨some [DocumentChange.textDocumentEdit ⟨td, pre ++ m :: post⟩]⟩).2.getLast? =
      some (Event.selectRange (computeSelection (lineDeltaAfter 0 pre) m nt s l)) := by
  have hsel := applyLoop_sel_last ⟨td, pre ++ m :: post⟩ m nt s l hm post hpost pre ws none 0
  rw [applySWE_select ws ⟨td, pre ++ m :: post⟩ [] _ hsel huri]
  exact List.getLast?_concat _

/-- C2 witness: instantiating the amended claim on a two-marker group. -/
theorem c2_witness :
    parseSnippet c2M2.newText = some ([], 0, 0) ∧
    (applySnippetWorkspaceEdit wsA
        ⟨some [DocumentChange.textDocumentEdit ⟨⟨uriA⟩, [c2M1] ++ c2M2 :: []⟩]⟩).2.getLast? =
      some (Event.selectRange (computeSelection (lineDeltaAfter 0 [c2M1]) c2M2 [] 0 0)) :=
  ⟨by decide,
    c2_last_marker_selection wsA ⟨uriA⟩ [c2M1] c2M2 [] [] 0 0 (by decide)
      (by decide) (by decide)⟩

/-- C3 counterexample: three edits, the first two markerless with drifts 2
and 3, then a `$0` edit at line 5.  The computed target line is 8 = 5 + 3
(only the most recent drift counts, `lineDelta` being overwritten), not
5 + (2 + 3) = 10 as the claimed sum over all prior edits predicts. -/
theorem c3_counterexample :
    (drift c3E1 = 2 ∧ drift c3E2 = 3) ∧
    (applySnippetWorkspaceEdit wsA
        ⟨some [DocumentChange.textDocumentEdit ⟨⟨uriA⟩, [c3E1, c3E2, c3M]⟩]⟩).2.getLast? =
      some (Event.selectRange (Range.create 8 0 8 0)) ∧
    (8 : Int) ≠ c3M.range.start.line + (drift c3E1 + drift c3E2) +
      (countLines (([] : List Char)) : Int) := by
  refine ⟨by decide, by decide, by decide⟩

/-- C3 (amended): the target line of the applied Selection is the marker
edit's original start line, plus the newlines in the replacement prefix
before the marker, plus the drift of the MOST RECENT prior markerless Edit
(`0` when there is none) — `lineDelta` is overwritten by each markerless
edit, not summed, and marker-bearing edits contribute nothing.  In
particular, with one prior edit inserting 2 extra lines the target line is
the original plus 2. -/
theorem c3_target_line (ws : Workspace) (td : TextDocumentIdentifier)
    (pre : List TextEdit) (m : TextEdit) (post : List TextEdit)
    (nt : List Char) (s l : Nat)
    (hm : parseSnippet m.newText = some (nt, s, l))
    (hpost : ∀ e ∈ post, parseSnippet e.newText = none)
    (huri : ws.currentUri = td.uri) :
    (applySnippetWorkspaceEdit ws
        ⟨some [DocumentChange.textDocumentEdit ⟨td, pre ++ m :: post⟩]⟩).2.getLast? =
      some (Event.selectRange (computeSelection (lastNonMarkerDrift 0 pre) m nt s l)) ∧
    (computeSelection (lastNonMarkerDrift 0 pre) m nt s l).start.line =
      m.range.start.line + lastNonMarkerDrift 0 pre + (countLines (nt.take s) : Int) := by
  constructor
  · have hsel := applyLoop_sel_last ⟨td, pre ++ m :: post⟩ m nt s l hm post hpost pre ws none 0
    rw [lineDeltaAfter_eq_lastNonMarkerDrift] at hsel
    rw [applySWE_select ws ⟨td, pre ++ m :: post⟩ [] _ hsel huri]
    exact List.getLast?_concat _
  · rfl

/-- C3 witness: the claim's own two-edit example — the first edit inserts 2
extra lines, the `$0` edit originally targets line 3, and the applied
Selection lands on line 5 = 3 + 2. -/
theorem c3_witness :
    drift c3E1 = 2 ∧
    (applySnippetWorkspaceEdit wsA
        ⟨some [DocumentChange.textDocumentEdit
          ⟨⟨uriA⟩, [c3E1] ++ (⟨Range.create 3 0 3 0, "$0".data⟩ : TextEdit) :: []⟩]⟩).2.getLast? =
      some (Event.selectRange (computeSelection (lastNonMarkerDrift 0 [c3E1])
        (⟨Range.create 3 0 3 0, "$0".data⟩ : TextEdit) [] 0 0)) ∧
    (computeSelection (lastNonMarkerDrift 0 [c3E1])
        (⟨Range.create 3 0 3 0, "$0".data⟩ : TextEdit) [] 0 0).start.line = 3 + 2 := by
  refine ⟨by decide, ?_, by decide⟩
  exact (c3_target_line wsA ⟨uriA⟩ [c3E1] ⟨Range.create 3 0 3 0, "$0".data⟩ [] [] 0 0
    (by decide) (by decide) (by decide)).1

/-- C4 counterexample: a markerless group whose document differs from the
active one — the loop applies the edits but the function never calls the
store's switch-document operations (`loadFile`/`jumpTo`), contradicting the
claim's "regardless of whether any Edit contained a placeholder marker". -/
theorem c4_counterexample :
    ¬ws4.currentUri = uriA ∧
    (∀ e ∈ c1Edits, parseSnippet e.newText = none) ∧
    (applySnippetWorkspaceEdit ws4
        ⟨some [DocumentChange.textDocumentEdit ⟨⟨uriA⟩, c1Edits⟩]⟩).2.all
      (fun ev => !isLoadFileEv ev && !isJumpToEv ev) = true ∧
    ¬(applySnippetWorkspaceEdit ws4
        ⟨some [DocumentChange.textDocumentEdit ⟨⟨uriA⟩, c1Edits⟩]⟩).1.currentUri = uriA := by
  refine ⟨by decide, by decide, by decide, by decide⟩

/-- C4 (amended): the switch-document calls happen only when a Selection was
computed.  When some Edit bears a marker and the active document differs
from the edited one, the trace ends with `loadFile` then `jumpTo` and holds
no Selection-placement call; when no Edit bears a marker, the trace consists
of edit applications only — no switch and no selection placement. -/
theorem c4_switch_only_with_marker (ws : Workspace) (td : TextDocumentIdentifier)
    (edits : List TextEdit) (huri : ¬ws.currentUri = td.uri) :
    ((∃ e ∈ edits, (parseSnippet e.newText).isSome = true) →
      (∃ evs, (applySnippetWorkspaceEdit ws
          ⟨some [DocumentChange.textDocumentEdit ⟨td, edits⟩]⟩).2 =
        evs ++ [Event.loadFile td.uri, Event.jumpTo td.uri]) ∧
      (applySnippetWorkspaceEdit ws
          ⟨some [DocumentChange.textDocumentEdit ⟨td, edits⟩]⟩).2.all
        (fun ev => !isSelectRangeEv ev) = true) ∧
    ((∀ e ∈ edits, parseSnippet e.newText = none) →
      (applySnippetWorkspaceEdit ws
          ⟨some [DocumentChange.textDocumentEdit ⟨td, edits⟩]⟩).2.all
        isApplyEditEv = true) := by
  constructor
  · intro hex
    have hsome := applyLoop_sel_marker_isSome ⟨td, edits⟩ edits hex ws none 0
    obtain ⟨sel, hsel⟩ := Option.isSome_iff_exists.mp hsome
    rw [applySWE_switch ws ⟨td, edits⟩ [] sel hsel huri]
    constructor
    · exact ⟨_, rfl⟩
    · rw [List.all_append, Bool.and_eq_true]
      constructor
      · rw [List.all_eq_true]
        intro ev hev
        have := (isApplyEditEv_only ev
          (applyLoop_events_applyEdit ⟨td, edits⟩ edits ws none 0 ev hev)).1
        simp [this]
      · rfl
  · intro hnone
    have hsel := applyLoop_sel_frozen ⟨td, edits⟩ edits hnone ws none 0
    rw [applySWE_noSel ws ⟨td, edits⟩ [] hsel]
    rw [List.all_eq_true]
    intro ev hev
    exact applyLoop_events_applyEdit ⟨td, edits⟩ edits ws none 0 ev hev

/-- C4 witness: with a marker-bearing group edited in a non-active document
the trace ends with the switch calls and places no selection; a markerless
group yields edit applications only. -/
theorem c4_witness :
    ((∃ e ∈ [c2M1], (parseSnippet e.newText).isSome = true) ∧
      ((∃ evs, (applySnippetWorkspaceEdit ws4
          ⟨some [DocumentChange.textDocumentEdit ⟨⟨uriA⟩, [c2M1]⟩]⟩).2 =
        evs ++ [Event.loadFile uriA, Event.jumpTo uriA]) ∧
      (applySnippetWorkspaceEdit ws4
          ⟨some [DocumentChange.textDocumentEdit ⟨⟨uriA⟩, [c2M1]⟩]⟩).2.all
        (fun ev => !isSelectRangeEv ev) = true)) ∧
    (applySnippetWorkspaceEdit ws4
        ⟨some [DocumentChange.textDocumentEdit ⟨⟨uriA⟩, c1Edits⟩]⟩).2.all
      isApplyEditEv = true := by
  refine ⟨⟨by decide, ?_⟩, ?_⟩
  · exact (c4_switch_only_with_marker ws4 ⟨uriA⟩ [c2M1] (by decide)).1 (by decide)
  · exact (c4_switch_only_with_marker ws4 ⟨uriA⟩ c1Edits (by decide)).2 (by decide)

/-- C5 counterexample: for the replacement `$\x7b0:$$\x7d` — a bounded marker
whose default content is `$$` — JS `String.replace` treats `$$` as an escape
for `$`: `parseSnippet` returns the text `$` (length 1) with recorded length
2, not the marker replaced by its default content `$$`. -/
theorem c5_counterexample :
    isMarker "$\x7b0:$$\x7d".data "$$".data ∧
    parseSnippet "$\x7b0:$$\x7d".data = some ("$".data, 0, 2) ∧
    ("$".data : List Char) ≠ ([] : List Char) ++ "$$".data ++ ([] : List Char) := by
  refine ⟨by decide, by decide, by decide⟩

/-- C5 (amended): `parseSnippet` succeeds exactly on texts containing a
marker substring; at the first marker, PROVIDED the default content holds no
JS replacement-pattern escape (`$` before `$`, `&`, backquote or
apostrophe), it returns the text with the marker replaced by the default
content together with the marker's offset and the default content's length;
on texts with no marker substring it returns `undefined`. -/
theorem c5_parse_contract (s : List Char) :
    ((parseSnippet s).isSome = true ↔ containsMarker s) ∧
    (∀ i m d, findMarker s = some (i, m, d) → noDollarEscape d →
      s = s.take i ++ m ++ s.drop (i + m.length) ∧ isMarker m d ∧
      parseSnippet s = some (s.take i ++ d ++ s.drop (i + m.length), i, d.length)) := by
  refine ⟨parseSnippet_isSome_iff s, ?_⟩
  intro i m d h hd
  exact ⟨findMarker_split s i m d h, (findMarker_parts s i m d h).1,
    parseSnippet_marker s i m d h hd⟩

/-- C5 witness: a bounded marker with default `ab` inside `x…y`, and a
markerless text. -/
theorem c5_witness :
    containsMarker "x$\x7b0:ab\x7dy".data ∧
    parseSnippet "x$\x7b0:ab\x7dy".data = some ("xaby".data, 1, 2) ∧
    ¬containsMarker "abc".data := by
  refine ⟨?_, ?_, ?_⟩
  · exact (c5_parse_contract "x$\x7b0:ab\x7dy".data).1.mp (by decide)
  · have h := ((c5_parse_contract "x$\x7b0:ab\x7dy".data).2 1 "$\x7b0:ab\x7d".data
      "ab".data (by decide) (by decide)).2.2
    rw [h]
    decide
  · intro hc
    have := (c5_parse_contract "abc".data).1.mpr hc
    exact absurd this (by decide)

/-- C6: the Selection's column law — the end column is the start column plus
the default-text length; when the replacement prefix before the marker has
no newline (marker on the first line of the inserted text) the start column
is the edit's start column plus the marker offset; when the prefix holds a
newline at last index `j` (marker on a later line), the start column is the
distance from that line break to the marker, `s - j - 1`.  And the claim's
concrete example: `$\x7b0:foo\x7d` inserted at line 2, column 4 yields the
Selection [4, 7] on line 2 and the document text holds `foo` in place of the
marker. -/
theorem c6_selection_column :
    (∀ (δ : Int) (indel : TextEdit) (nt : List Char) (s l : Nat),
      parseSnippet indel.newText = some (nt, s, l) →
      ((computeSelection δ indel nt s l).«end».character =
          (computeSelection δ indel nt s l).start.character + (l : Int)) ∧
      (countLines (nt.take s) = 0 →
        (computeSelection δ indel nt s l).start.character =
          indel.range.start.character + (s : Int)) ∧
      (∀ j : Nat, lastIndexOf (nt.take s) '\n' = (j : Int) →
        (computeSelection δ indel nt s l).start.character =
          (s : Int) - (j : Int) - 1)) ∧
    ((applySnippetWorkspaceEdit ws6
        ⟨some [DocumentChange.textDocumentEdit tde6]⟩).2.getLast? =
      some (Event.selectRange (Range.create 2 4 2 7)) ∧
    getDoc (applySnippetWorkspaceEdit ws6
        ⟨some [DocumentChange.textDocumentEdit tde6]⟩).1 uriA =
      some "aaaa\nbbbb\nccccfoo\ndddd".data) := by
  constructor
  · intro δ indel nt s l hp
    have hle : s ≤ nt.length := parseSnippet_some_le indel.newText nt s l hp
    have hprelen : (nt.take s).length = s := by
      rw [List.length_take]
      omega
    refine ⟨rfl, ?_, ?_⟩
    · intro hcount
      have hlast : lastIndexOf (nt.take s) '\n' = -1 :=
        (lastIndexOf_spec '\n' (nt.take s)).2.mpr hcount
      simp [computeSelection, Range.create, hlast]
    · intro j hj
      have hne : ¬lastIndexOf (nt.take s) '\n' = -1 := by
        rw [hj]; omega
      simp only [computeSelection, Range.create, if_neg hne]
      rw [hj, hprelen]
  · exact ⟨by decide, by decide⟩

/-- C6 witness: the general column law instantiated on the example edit. -/
theorem c6_witness :
    parseSnippet m6.newText = some ("foo".data, 0, 3) ∧
    (computeSelection 0 m6 "foo".data 0 3).start.character =
      m6.range.start.character + ((0 : Nat) : Int) ∧
    (computeSelection 0 m6 "foo".data 0 3).«end».character =
      (computeSelection 0 m6 "foo".data 0 3).start.character + ((3 : Nat) : Int) := by
  have h := c6_selection_column.1 0 m6 "foo".data 0 3 (by decide)
  exact ⟨by decide, h.2.1 (by decide), h.1⟩

/-- C7 counterexample: the replacement `$\x7b0:x\x7d$0` contains the bare
marker `$0` (at offset 6), yet the parse picks the earlier bounded marker:
the resulting Selection has width 1 (not zero), and the inserted text
`x$0` still contains a marker — both halves of the claim fail. -/
theorem c7_counterexample :
    firstOccur ['$', '0'] c7S = some 6 ∧
    parseSnippet c7S = some ("x$0".data, 0, 1) ∧
    (computeSelection 0 c7Indel "x$0".data 0 1).start ≠
      (computeSelection 0 c7Indel "x$0".data 0 1).«end» ∧
    findMarker "x$0".data ≠ none := by
  refine ⟨by decide, by decide, by decide, by decide⟩

/-- C7 (amended): for every Edit whose replacement text's FIRST placeholder
marker is the bare `$0`, the parse returns the replacement with that `$0`
removed (later markers, if any, remain) and records a zero-length
placeholder; the computed Selection has zero width, and the edit applied for
it carries exactly that marker-stripped text. -/
theorem c7_bare_marker (δ : Int) (indel : TextEdit) (i : Nat)
    (h : findMarker indel.newText = some (i, ['$', '0'], [])) :
    parseSnippet indel.newText =
      some (indel.newText.take i ++ indel.newText.drop (i + 2), i, 0) ∧
    (computeSelection δ indel (indel.newText.take i ++ indel.newText.drop (i + 2)) i 0).start =
      (computeSelection δ indel (indel.newText.take i ++ indel.newText.drop (i + 2)) i 0).«end» ∧
    ∀ change ws sel,
      (applyLoop change ws sel δ [indel]).2.1 =
        [Event.applyEdit ⟨some [DocumentChange.textDocumentEdit
          ⟨change.textDocument,
            [⟨indel.range, indel.newText.take i ++ indel.newText.drop (i + 2)⟩]⟩]⟩] := by
  have hp := parseSnippet_marker indel.newText i ['$', '0'] [] h rfl
  simp only [List.append_nil, List.nil_append] at hp
  have hp2 : parseSnippet indel.newText =
      some (indel.newText.take i ++ indel.newText.drop (i + 2), i, 0) := by
    simpa using hp
  refine ⟨hp2, ?_, ?_⟩
  · simp [computeSelection, Range.create, Position.mk.injEq]
  · intro change ws sel
    simp only [applyLoop, hp2]

/-- C7 witness: the bare marker inside `ab$0cd`. -/
theorem c7_witness :
    parseSnippet "ab$0cd".data =
      some (("ab$0cd".data).take 2 ++ ("ab$0cd".data).drop 4, 2, 0) ∧
    (computeSelection 0 (⟨Range.create 0 0 0 0, "ab$0cd".data⟩ : TextEdit)
        (("ab$0cd".data).take 2 ++ ("ab$0cd".data).drop 4) 2 0).start =
      (computeSelection 0 (⟨Range.create 0 0 0 0, "ab$0cd".data⟩ : TextEdit)
        (("ab$0cd".data).take 2 ++ ("ab$0cd".data).drop 4) 2 0).«end» := by
  have h := c7_bare_marker 0 (⟨Range.create 0 0 0 0, "ab$0cd".data⟩ : TextEdit) 2 (by decide)
  exact ⟨h.1, h.2.1⟩

/-- C8: a `WorkspaceEdit` whose `documentChanges` is absent or empty, or
whose first document change is not a text-document edit, is a silent no-op:
the store is unchanged and no call is made into it. -/
theorem c8_noop (ws : Workspace) (edit : WorkspaceEdit)
    (h : edit.documentChanges = none ∨ edit.documentChanges = some [] ∨
      ∃ rest, edit.documentChanges = some (DocumentChange.resourceOp :: rest)) :
    applySnippetWorkspaceEdit ws edit = (ws, []) := by
  rcases h with h | h | ⟨rest, h⟩ <;> unfold applySnippetWorkspaceEdit <;> rw [h]

/-- C8 witness: the three unrecognized shapes at a concrete store. -/
theorem c8_witness :
    applySnippetWorkspaceEdit wsA ⟨none⟩ = (wsA, []) ∧
    applySnippetWorkspaceEdit wsA ⟨some []⟩ = (wsA, []) ∧
    applySnippetWorkspaceEdit wsA ⟨some [DocumentChange.resourceOp]⟩ = (wsA, []) :=
  ⟨c8_noop wsA ⟨none⟩ (Or.inl rfl), c8_noop wsA ⟨some []⟩ (Or.inr (Or.inl rfl)),
    c8_noop wsA ⟨some [DocumentChange.resourceOp]⟩ (Or.inr (Or.inr ⟨[], rfl⟩))⟩

/-- C9: the marker-bearing edit is applied as its own isolated workspace
edit holding exactly that single `TextEdit` with the marker replaced by the
parsed text; and the store state reached after any prefix of the group is
the fold of the recorded calls of that prefix — each application's effect is
visible before the next edit is processed. -/
theorem c9_isolated_sequential (change : TextDocumentEdit) (ws : Workspace)
    (sel : Option Range) (δ : Int) :
    (∀ (pre : List TextEdit) (m : TextEdit) (post : List TextEdit)
        (nt : List Char) (s l : Nat),
      parseSnippet m.newText = some (nt, s, l) →
      (applyLoop change ws sel δ (pre ++ m :: post)).2.1[pre.length]? =
        some (Event.applyEdit ⟨some [DocumentChange.textDocumentEdit
          ⟨change.textDocument, [⟨m.range, nt⟩]⟩]⟩)) ∧
    (∀ (edits : List TextEdit) (k : Nat),
      (applyLoop change ws sel δ (edits.take k)).1 =
        ((applyLoop change ws sel δ edits).2.1.take k).foldl applyEventW ws) :=
  ⟨fun pre m post nt s l hm => applyLoop_event_at change m nt s l hm post pre ws sel δ,
    fun edits k => applyLoop_state_trace change edits ws sel δ k⟩

/-- C9 witness: the `foo` marker edit is recorded as an isolated single-edit
application, and the one-step prefix state is the fold of the one-event
trace. -/
theorem c9_witness :
    (applyLoop tde6 ws6 none 0 ([] ++ m6 :: [])).2.1[(0 : Nat)]? =
      some (Event.applyEdit ⟨some [DocumentChange.textDocumentEdit
        ⟨tde6.textDocument, [⟨m6.range, "foo".data⟩]⟩]⟩) ∧
    (applyLoop tde6 ws6 none 0 ([m6].take 1)).1 =
      ((applyLoop tde6 ws6 none 0 [m6]).2.1.take 1).foldl applyEventW ws6 :=
  ⟨(c9_isolated_sequential tde6 ws6 none 0).1 [] m6 [] "foo".data 0 3 (by decide),
    (c9_isolated_sequential tde6 ws6 none 0).2 [m6] 1⟩

/-- C10: only the first element of `documentChanges` is processed — the run
on `c :: rest` equals the run on `[c]` alone (so later changes contribute
nothing to the Selection, drift, or edits), and documents other than the
first change's target are never edited. -/
theorem c10_first_change_only (ws : Workspace) (c : DocumentChange)
    (rest : List DocumentChange) :
    applySnippetWorkspaceEdit ws ⟨some (c :: rest)⟩ =
      applySnippetWorkspaceEdit ws ⟨some [c]⟩ ∧
    (∀ tde u, c = DocumentChange.textDocumentEdit tde → ¬u = tde.textDocument.uri →
      getDoc (applySnippetWorkspaceEdit ws ⟨some (c :: rest)⟩).1 u = getDoc ws u) := by
  constructor
  · rfl
  · intro tde u hc hu
    subst hc
    exact applySWE_getDoc_ne ws tde rest u hu

/-- C10 witness: a second (resource-operation) change is ignored and a
document not named by the first change is untouched. -/
theorem c10_witness :
    applySnippetWorkspaceEdit wsA
        ⟨some (DocumentChange.textDocumentEdit c1Tde :: [DocumentChange.resourceOp])⟩ =
      applySnippetWorkspaceEdit wsA ⟨some [DocumentChange.textDocumentEdit c1Tde]⟩ ∧
    getDoc (applySnippetWorkspaceEdit wsA
        ⟨some (DocumentChange.textDocumentEdit c1Tde :: [DocumentChange.resourceOp])⟩).1 uriB =
      getDoc wsA uriB :=
  ⟨(c10_first_change_only wsA (DocumentChange.textDocumentEdit c1Tde)
      [DocumentChange.resourceOp]).1,
    (c10_first_change_only wsA (DocumentChange.textDocumentEdit c1Tde)
      [DocumentChange.resourceOp]).2 c1Tde uriB rfl (by decide)⟩

end RA
